import Mathlib

/-!
Verification of the refinement-checking engine of
`rfccc/nodes/choreography/refinement.py`: the control-flow-automaton (CFA)
builder `buildCFA`, the successor query `nextStatement`, the name-matching
predicates `sameMpName` / `sameMsgName`, the implication cache `implies`,
the per-kind compatibility predicate `compatible`, and the greatest-fixpoint
driver `check`.

Labels of program nodes and projection states are modelled as natural
numbers; conditions (sympy expressions) are an opaque inductive type with a
distinguished true literal and negation, compared only for structural
equality exactly as the engine does; the external decision procedure behind
`implies` is an arbitrary deterministic function `Cond → Cond → Bool`.
Python exceptions are modelled with `Except`: `PyErr.keyError` for a failed
dictionary lookup, `PyErr.nameErrorMode` for the unbound name `mode` on
line 139 of the source, `PyErr.ambiguousSuccessors` for the exception
raised by `nextStatement`, and `PyErr.fuelOut` as the value of a
`while`-loop iteration budget that is proven never to be exhausted.
-/

namespace Refinement

/-- Opaque boolean conditions over real variables.  The engine never looks
inside a condition except to compare it structurally with the sympy literal
`S.true` (constructor `sTrue`) and to form a negation `Not cond`
(constructor `sNot`) before handing it to the implication oracle. -/
inductive Cond where
  | sTrue
  | sNot (c : Cond)
  | atom (n : Nat)
deriving DecidableEq

/-- Modelled from the spec: projection nodes (`ast_chor` / `ast_proj` are
not under `src/`).  Tagged union  Motion(primitiveName, endState),
SendMessage(receiver, msgType, endState), ReceiveMessage(msgType, endState),
GuardedChoice(list of (guard, targetState)), ExternalChoice(list of
targetState), End.  A `GuardedChoice` entry `(g, t)` stands for a
`guarded_states` element with `expression = g` and `id = t`. -/
inductive ProjNode where
  | Motion (mp_name : List Char) (end_state : Nat)
  | SendMessage (receiver : List Char) (msg_type : List Char) (end_state : Nat)
  | ReceiveMessage (msg_type : List Char) (end_state : Nat)
  | GuardedChoice (guarded_states : List (Cond × Nat))
  | ExternalChoice (end_state : List Nat)
  | End

/-- Modelled from the spec: the projection collaborator exposes
`start_state` and the state-to-node mapping `mk_state_to_node()`. -/
structure Projection where
  start_state : Nat
  state_to_node : List (Nat × ProjNode)

mutual
/-- Modelled from the spec: program syntax-tree nodes (`ast_inter` is not
under `src/`).  Each node carries exactly one label, assigned by the
root-labelling pass.  `Statement` is the sequence kind (`children`); the
spec's data model gives `If` an ordered list of `(condition, program)`
branches whose entry labels are read directly from the AST, so the
source's `If`/`IfComponent` pair of `buildCFA` cases composes into one
`If` case here. -/
inductive Stmt where
  | Statement (label : Nat) (children : StmtList)
  | Receive (label : Nat) (motion : Stmt) (actions : StmtList)
  | Action (label : Nat) (str_msg_type : List Char) (program : Stmt)
  | If (label : Nat) (if_list : IfList)
  | While (label : Nat) (condition : Cond) (program : Stmt)
  | Motion (label : Nat) (value : List Char)
  | Assign (label : Nat)
  | Send (label : Nat) (comp : List Char) (msg_type : List Char)
  | Print (label : Nat)
  | Skip (label : Nat)
  | Exit (label : Nat)

/-- A list of statements (children of a sequence, actions of a receive). -/
inductive StmtList where
  | nil
  | cons (head : Stmt) (tail : StmtList)

/-- The branch list of an `If`: each branch has a condition and a body. -/
inductive IfList where
  | nil
  | cons (condition : Cond) (program : Stmt) (tail : IfList)
end

/-- The label carried by a node (`get_label()`). -/
def Stmt.get_label : Stmt → Nat
  | .Statement l _ => l
  | .Receive l _ _ => l
  | .Action l _ _ => l
  | .If l _ => l
  | .While l _ _ => l
  | .Motion l _ => l
  | .Assign l => l
  | .Send l _ _ => l
  | .Print l => l
  | .Skip l => l
  | .Exit l => l

/-- View a `StmtList` as an ordinary list. -/
def StmtList.toList : StmtList → List Stmt
  | .nil => []
  | .cons s rest => s :: rest.toList

mutual
/-- Modelled from the spec: `label_as_root()` yields the mapping from each
node's label to the node itself (`self.programLabels`), one entry per
syntax-tree node. -/
def labelsOf : Stmt → List (Nat × Stmt)
  | .Statement l cs => (l, .Statement l cs) :: labelsOfList cs
  | .Receive l m acts => (l, .Receive l m acts) :: (labelsOf m ++ labelsOfList acts)
  | .Action l t p => (l, .Action l t p) :: labelsOf p
  | .If l ifs => (l, .If l ifs) :: labelsOfIfs ifs
  | .While l c p => (l, .While l c p) :: labelsOf p
  | s => [(s.get_label, s)]

/-- Labels of every node of a statement list. -/
def labelsOfList : StmtList → List (Nat × Stmt)
  | .nil => []
  | .cons s rest => labelsOf s ++ labelsOfList rest

/-- Labels of every node inside the branches of an `If`. -/
def labelsOfIfs : IfList → List (Nat × Stmt)
  | .nil => []
  | .cons _ p rest => labelsOf p ++ labelsOfIfs rest
end

/-- Python exceptions of the engine, plus `fuelOut` for the iteration
budget of the modelled `while` loop (proven unreachable). -/
inductive PyErr where
  | keyError
  | nameErrorMode
  | ambiguousSuccessors
  | fuelOut
deriving DecidableEq

/-- The CFA `self.nextLabel` as a set of fallthrough edges
`(label, successor)`; the source stores it as a dict of sets, so only the
set of edges matters, never order or multiplicity. -/
abbrev CFA := List (Nat × Nat)

/-- For each `ls` in `lastLabels`, add the edge `nextLabel[ls].add(l)`. -/
def connect (g : CFA) (lastLabels : List Nat) (l : Nat) : CFA :=
  g ++ lastLabels.map (fun ls => (ls, l))

mutual
/-- `buildCFA(lastLabels, statment)`: connect every incoming predecessor to
the node's own label, recurse per kind, return the exit labels.
The `Receive` case follows the source exactly: the motion is entered from
the receive's own label (`lastLabel` is `[l]` at that point), the motion's
exits are wired back to the receive's label, and each action starts from
the receive's label. -/
def buildCFA (g : CFA) (lastLabels : List Nat) (statment : Stmt) : CFA × List Nat :=
  match statment with
  | .Statement l cs => buildCFASeq (connect g lastLabels l) [l] cs
  | .Receive l m acts =>
      match buildCFA (connect g lastLabels l) [l] m with
      | (g2, ls2) => buildCFAUnion (connect g2 ls2 l) [l] acts
  | .Action l _ p => buildCFA (connect g lastLabels l) [l] p
  | .If l ifs => buildCFAIfs (connect g lastLabels l) [l] ifs
  | .While l _ p =>
      match buildCFA (connect g lastLabels l) [] p with
      | (g2, ls2) => (connect g2 ls2 l, [l])
  | s => (connect g lastLabels s.get_label, [s.get_label])

/-- Fold of `buildCFA` over the children of a sequence: each child starts
from the previous child's exits; the exits of the last child are returned. -/
def buildCFASeq (g : CFA) (lastLabel : List Nat) (cs : StmtList) : CFA × List Nat :=
  match cs with
  | .nil => (g, lastLabel)
  | .cons s rest =>
      match buildCFA g lastLabel s with
      | (g2, last2) => buildCFASeq g2 last2 rest

/-- Fold of `buildCFA` over the actions of a receive: every action starts
from the same predecessor list and the exit sets are united. -/
def buildCFAUnion (g : CFA) (start : List Nat) (acts : StmtList) : CFA × List Nat :=
  match acts with
  | .nil => (g, [])
  | .cons s rest =>
      match buildCFA g start s with
      | (g2, ex1) =>
          match buildCFAUnion g2 start rest with
          | (g3, exs) => (g3, ex1 ++ exs)

/-- Fold of `buildCFA` over the branches of an `If`: every branch body
starts from the same predecessor list and the exit sets are united. -/
def buildCFAIfs (g : CFA) (start : List Nat) (ifs : IfList) : CFA × List Nat :=
  match ifs with
  | .nil => (g, [])
  | .cons _ p rest =>
      match buildCFA g start p with
      | (g2, ex1) =>
          match buildCFAIfs g2 start rest with
          | (g3, exs) => (g3, ex1 ++ exs)
end

/-- The fallthrough successor set `self.nextLabel[l]` of a label, as a
duplicate-free list. -/
def succs (g : CFA) (l : Nat) : List Nat :=
  ((g.filter (fun e => e.1 == l)).map Prod.snd).dedup

/-- `nextStatement(statment)`: no successor yields `None`; more than one
raises the ambiguous-successors exception; otherwise the unique successor
is returned. -/
def nextStatement (g : CFA) (statment : Nat) : Except PyErr (Option Nat) :=
  let n := succs g statment
  if n.length = 0 then .ok none
  else if 1 < n.length then .error .ambiguousSuccessors
  else .ok n.head?

/-- Python's `str.lower()` on a name, character by character. -/
def lowerName (n : List Char) : List Char := n.map Char.toLower

/-- `sameMpName(n1, n2)`: `l1 == l2 or l1 == 'm_' + l2` on the lowercased
names. -/
def sameMpName (n1 n2 : List Char) : Bool :=
  lowerName n1 == lowerName n2 || lowerName n1 == 'm' :: '_' :: lowerName n2

/-- `sameMsgName(n1, n2)`: `l1 == l2 or l1 == 'msg_' + l2` on the
lowercased names. -/
def sameMsgName (n1 n2 : List Char) : Bool :=
  lowerName n1 == lowerName n2 ||
    lowerName n1 == 'm' :: 's' :: 'g' :: '_' :: lowerName n2

/-- The memoization dictionary `self.cachedImplication`, newest entry
first. -/
abbrev ImplCache := List ((Cond × Cond) × Bool)

/-- `implies(cond1, cond2)` with its cache: a hit returns the cached
answer, a miss queries the external decision procedure (`oracle`, the
verdict of discharging `And(cond1, Not(cond2))`) and stores the answer. -/
def impliesC (oracle : Cond → Cond → Bool) (cache : ImplCache)
    (cond1 cond2 : Cond) : Bool × ImplCache :=
  match cache.lookup (cond1, cond2) with
  | some res => (res, cache)
  | none => (oracle cond1 cond2, ((cond1, cond2), oracle cond1 cond2) :: cache)

/-- A cache is consistent when every stored answer agrees with the
(deterministic) external decision procedure. -/
def ConsistentCache (oracle : Cond → Cond → Bool) (cache : ImplCache) : Prop :=
  ∀ p ∈ cache, p.2 = oracle p.1.1 p.1.2

/-- Dictionary lookup `self.programLabels[l]`. -/
def lookupStmt (pl : List (Nat × Stmt)) (l : Nat) : Option Stmt := pl.lookup l

/-- Dictionary lookup `self.state_to_node[s]`. -/
def lookupNode (s2n : List (Nat × ProjNode)) (s : Nat) : Option ProjNode :=
  s2n.lookup s

/-- `isinstance(node, End)`. -/
def isEnd : ProjNode → Bool
  | .End => true
  | _ => false

/-- `_refines(statment, node)`: a missing program continuation is valid
exactly on an `End` projection node (a dangling state raises `KeyError`);
otherwise membership of `node` in the current `compat[statment]`, read
from the not-yet-converged relation. -/
def _refines (s2n : List (Nat × ProjNode)) (compat : Finset (Nat × Nat))
    (statment : Option Nat) (node : Nat) : Except PyErr Bool :=
  match statment with
  | none =>
      match lookupNode s2n node with
      | none => .error .keyError
      | some nd => .ok (isEnd nd)
  | some l => .ok (decide ((l, node) ∈ compat))

/-- `self._refines(self.nextStatement(statmentL), target)`: the successor
query runs first and its exception propagates. -/
def refinesNext (s2n : List (Nat × ProjNode)) (g : CFA)
    (compat : Finset (Nat × Nat)) (statmentL : Nat) (target : Nat) :
    Except PyErr Bool :=
  match nextStatement g statmentL with
  | .error e => .error e
  | .ok nx => _refines s2n compat nx target

/-- Python's short-circuiting `any` over a generator whose body may raise. -/
def anyM {α : Type} (f : α → Except PyErr Bool) : List α → Except PyErr Bool
  | [] => .ok false
  | a :: rest =>
      match f a with
      | .error e => .error e
      | .ok true => .ok true
      | .ok false => anyM f rest

/-- Python's short-circuiting `all` over a generator whose body may raise. -/
def allM {α : Type} (f : α → Except PyErr Bool) : List α → Except PyErr Bool
  | [] => .ok true
  | a :: rest =>
      match f a with
      | .error e => .error e
      | .ok false => .ok false
      | .ok true => allM f rest

/-- The branch bodies of an `If` whose condition is the literal `S.true`
(`trivial = [case.program for case in statment.if_list if case.condition
== S.true]`). -/
def trueBranches : IfList → List Stmt
  | .nil => []
  | .cons c p rest =>
      if c = Cond.sTrue then p :: trueBranches rest else trueBranches rest

/-- The kind dispatch of `compatible(statmentL, nodeL)` once the program
node `statment` and the projection node `node` have been looked up,
following the source case by case.  `impl` is the (memoized,
deterministic) verdict of `self.implies`.  In the `If`/`GuardedChoice`
case the source's generator iterates over `mode.guarded_states` where
`mode` is an unbound name, so with a nonempty branch list the first loop
iteration raises `NameError` before any guard is examined, while an empty
branch list skips the loop body and returns `True`. -/
def compatibleS (impl : Cond → Cond → Bool) (s2n : List (Nat × ProjNode))
    (g : CFA) (compat : Finset (Nat × Nat)) (statmentL nodeL : Nat)
    (statment : Stmt) (node : ProjNode) : Except PyErr Bool :=
  match statment with
          | .Motion _ value =>
              match node with
              | .Motion mp_name end_state =>
                  if sameMpName value mp_name then
                    refinesNext s2n g compat statmentL end_state
                  else .ok false
              | _ => .ok false
          | .Assign _ => refinesNext s2n g compat statmentL nodeL
          | .While _ condition program =>
              if condition = Cond.sTrue then
                _refines s2n compat (some program.get_label) nodeL
              else
                match node with
                | .GuardedChoice gss =>
                    match anyM (fun gs =>
                        if impl condition gs.1 then
                          _refines s2n compat (some program.get_label) gs.2
                        else .ok false) gss with
                    | .error e => .error e
                    | .ok false => .ok false
                    | .ok true =>
                        anyM (fun gs =>
                          if impl (Cond.sNot condition) gs.1 then
                            refinesNext s2n g compat statmentL gs.2
                          else .ok false) gss
                | _ => .ok false
          | .If _ if_list =>
              match node with
              | .GuardedChoice _ =>
                  match if_list with
                  | .nil => .ok true
                  | .cons _ _ _ => .error .nameErrorMode
              | _ =>
                  anyM (fun s => _refines s2n compat (some s.get_label) nodeL)
                    (trueBranches if_list)
          | .Send _ comp msg_type =>
              match node with
              | .SendMessage receiver mtype end_state =>
                  if comp == receiver && sameMsgName msg_type mtype then
                    refinesNext s2n g compat statmentL end_state
                  else .ok false
              | _ => .ok false
          | .Receive _ motion actions =>
              match node with
              | .ReceiveMessage _ _ =>
                  anyM (fun rs => _refines s2n compat (some rs.get_label) nodeL)
                    actions.toList
              | .Motion _ _ =>
                  _refines s2n compat (some motion.get_label) nodeL
              | .ExternalChoice end_state =>
                  allM (fun ns =>
                    match _refines s2n compat (some motion.get_label) ns with
                    | .error e => .error e
                    | .ok true => .ok true
                    | .ok false =>
                        anyM (fun r => _refines s2n compat (some r.get_label) ns)
                          actions.toList) end_state
              | _ => .ok false
          | .Action _ str_msg_type _ =>
              match node with
              | .ReceiveMessage msg_type end_state =>
                  if str_msg_type == msg_type then
                    refinesNext s2n g compat statmentL end_state
                  else .ok false
              | _ => .ok false
          | .Print _ => refinesNext s2n g compat statmentL nodeL
          | .Skip _ => refinesNext s2n g compat statmentL nodeL
          | .Statement _ _ => refinesNext s2n g compat statmentL nodeL
          | .Exit _ => .ok (isEnd node)

/-- `compatible(statmentL, nodeL)`: resolve `self.programLabels[statmentL]`
and `self.state_to_node[nodeL]` (a missing key raises) and dispatch on the
two kinds. -/
def compatible (impl : Cond → Cond → Bool) (pl : List (Nat × Stmt))
    (s2n : List (Nat × ProjNode)) (g : CFA) (compat : Finset (Nat × Nat))
    (statmentL nodeL : Nat) : Except PyErr Bool :=
  match lookupStmt pl statmentL with
  | none => .error .keyError
  | some statment =>
      match lookupNode s2n nodeL with
      | none => .error .keyError
      | some node => compatibleS impl s2n g compat statmentL nodeL statment node

/-- The program labels `allLabels` in a fixed iteration order. -/
def labelList (prog : Stmt) : List Nat := ((labelsOf prog).map Prod.fst).dedup

/-- The projection state labels `allState` in a fixed iteration order. -/
def stateList (proj : Projection) : List Nat :=
  (proj.state_to_node.map Prod.fst).dedup

/-- The universal relation `{ l: copy(allState) for l in allLabels }` that
every `check()` call starts from. -/
def initCompat (prog : Stmt) (proj : Projection) : Finset (Nat × Nat) :=
  (labelList prog).toFinset ×ˢ (stateList proj).toFinset

/-- The inner loop `for s in copy(self.compat[l])` of one pass: each state
of the snapshot is tested against the current relation and discarded on
failure.  `removed` counts discards and `evals` counts `compatible`
evaluations. -/
def passStates (impl : Cond → Cond → Bool) (pl : List (Nat × Stmt))
    (s2n : List (Nat × ProjNode)) (g : CFA) (l : Nat) (snapshot : List Nat)
    (compat : Finset (Nat × Nat)) (changed : Bool) (removed evals : Nat) :
    Except PyErr (Finset (Nat × Nat) × Bool × Nat × Nat) :=
  match snapshot with
  | [] => .ok (compat, changed, removed, evals)
  | s :: rest =>
      match compatible impl pl s2n g compat l s with
      | .error e => .error e
      | .ok true => passStates impl pl s2n g l rest compat changed removed (evals + 1)
      | .ok false =>
          passStates impl pl s2n g l rest (compat.erase (l, s)) true
            (removed + 1) (evals + 1)

/-- One full pass `for l in allLabels: for s in copy(self.compat[l])`. -/
def passLabels (impl : Cond → Cond → Bool) (pl : List (Nat × Stmt))
    (s2n : List (Nat × ProjNode)) (g : CFA) (ls states : List Nat)
    (compat : Finset (Nat × Nat)) (changed : Bool) (removed evals : Nat) :
    Except PyErr (Finset (Nat × Nat) × Bool × Nat × Nat) :=
  match ls with
  | [] => .ok (compat, changed, removed, evals)
  | l :: rest =>
      match passStates impl pl s2n g l
          (states.filter (fun s => decide ((l, s) ∈ compat))) compat changed
          removed evals with
      | .error e => .error e
      | .ok (c2, ch2, r2, e2) => passLabels impl pl s2n g rest states c2 ch2 r2 e2

/-- The `while changed` loop of `check()`, with an iteration budget.  The
budget only bounds the number of passes; `check` supplies
`initCompat.card + 1`, which is proven sufficient, so `fuelOut` never
escapes. -/
def checkLoop (impl : Cond → Cond → Bool) (pl : List (Nat × Stmt))
    (s2n : List (Nat × ProjNode)) (g : CFA) (ls states : List Nat) :
    Nat → Finset (Nat × Nat) → Nat → Nat →
    Except PyErr (Finset (Nat × Nat) × Nat × Nat)
  | 0, _, _, _ => .error .fuelOut
  | fuel + 1, compat, removed, evals =>
      match passLabels impl pl s2n g ls states compat false removed evals with
      | .error e => .error e
      | .ok (c2, false, r2, e2) => .ok (c2, r2, e2)
      | .ok (c2, true, r2, e2) =>
          checkLoop impl pl s2n g ls states fuel c2 r2 e2

/-- The CFA of a program, built as in the constructor:
`buildCFA([], program)` starting from the empty edge map. -/
def cfaOf (prog : Stmt) : CFA := (buildCFA [] [] prog).1

/-- `check()`: reset `compat` to the universal relation, run passes until
one removes nothing, and answer whether the projection's start state is
compatible with the program's root label. -/
def check (impl : Cond → Cond → Bool) (program : Stmt) (projection : Projection) :
    Except PyErr Bool :=
  match checkLoop impl (labelsOf program) projection.state_to_node
      (cfaOf program) (labelList program) (stateList projection)
      ((initCompat program projection).card + 1) (initCompat program projection)
      0 0 with
  | .error e => .error e
  | .ok (compat, _, _) =>
      .ok (decide ((program.get_label, projection.start_state) ∈ compat))

/-- The number of `compatible` evaluations a `check()` run performs before
quiescence (zero if the run raises). -/
def checkEvals (impl : Cond → Cond → Bool) (program : Stmt)
    (projection : Projection) : Nat :=
  match checkLoop impl (labelsOf program) projection.state_to_node
      (cfaOf program) (labelList program) (stateList projection)
      ((initCompat program projection).card + 1) (initCompat program projection)
      0 0 with
  | .error _ => 0
  | .ok (_, _, evals) => evals

/-- A relation is closed under the compatibility predicate when every pair
it contains passes `compatible` evaluated against the relation itself. -/
def ClosedUnder (impl : Cond → Cond → Bool) (pl : List (Nat × Stmt))
    (s2n : List (Nat × ProjNode)) (g : CFA) (R : Finset (Nat × Nat)) : Prop :=
  ∀ p ∈ R, compatible impl pl s2n g R p.1 p.2 = .ok true

/-- The program-node kinds whose `compatible` case consults
`nextStatement`: motions, assignments, the loop-exit side of a while,
sends, actions, prints, skips and sequences. -/
def usesNext : Stmt → Bool
  | .Motion _ _ => true
  | .Assign _ => true
  | .While _ _ _ => true
  | .Send _ _ _ => true
  | .Action _ _ _ => true
  | .Print _ => true
  | .Skip _ => true
  | .Statement _ _ => true
  | _ => false

/-- Modelled from the spec: the intended `If` versus `GuardedChoice` rule —
every branch `(cond_i, prog_i)` of the `If` has some guarded branch
`(g, t)` with `implies(cond_i, g)` and `_refines(prog_i.entryLabel, t)`
(the latter being membership of `t` in `compat[prog_i.entryLabel]`). -/
def ifGuardedChoiceRule (impl : Cond → Cond → Bool)
    (compat : Finset (Nat × Nat)) (ifs : IfList) (gss : List (Cond × Nat)) :
    Bool :=
  match ifs with
  | .nil => true
  | .cons c p rest =>
      (gss.any fun gs => impl c gs.1 && decide ((p.get_label, gs.2) ∈ compat)) &&
        ifGuardedChoiceRule impl compat rest gss

/-- Modelled from the spec: the `Receive` rule as the claim states it —
recurse into the motion with the *incoming predecessor* labels (instead of
the receive's own label), wire the motion's exits back to the receive's
label, run each action from the receive's label, and unite the actions'
exits. -/
def buildCFAReceiveClaim (g : CFA) (lastLabels : List Nat) (l : Nat)
    (motion : Stmt) (actions : StmtList) : CFA × List Nat :=
  match buildCFA (connect g lastLabels l) lastLabels motion with
  | (g2, ls2) => buildCFAUnion (connect g2 ls2 l) [l] actions

/-- A program that is a single `exit`. -/
def progExit : Stmt := .Exit 0

/-- A projection whose start state is an `End` node. -/
def projEnd : Projection := ⟨0, [(0, .End)]⟩

/-- An oracle that refutes every implication. -/
def oracleF : Cond → Cond → Bool := fun _ _ => false

/-- An oracle that accepts every implication. -/
def oracleT : Cond → Cond → Bool := fun _ _ => true

/-- A straight-line chain: a sequence of three skips. -/
def chainProg : Stmt :=
  .Statement 0 (.cons (.Skip 1) (.cons (.Skip 2) (.cons (.Skip 3) .nil)))

/-- A one-state projection whose only node is not `End`. -/
def chainProj : Projection := ⟨0, [(0, .Motion ['a'] 0)]⟩

/-- An `if` with a single guarded branch. -/
def progIf : Stmt := .If 0 (.cons (.atom 0) (.Skip 1) .nil)

/-- A projection state map with a single guarded-choice node. -/
def s2nGC : List (Nat × ProjNode) := [(5, .GuardedChoice [(.atom 0, 6)])]

/-- A receive with a one-motion body and a single action. -/
def recvStmt : Stmt :=
  .Receive 1 (.Motion 2 ['a']) (.cons (.Action 3 ['b'] (.Skip 4)) .nil)

section Lemmas

variable {impl : Cond → Cond → Bool} {pl : List (Nat × Stmt)}
variable {s2n : List (Nat × ProjNode)} {g : CFA}

/-- A successful association-list lookup returns a stored pair. -/
theorem lookup_mem {α β : Type} [BEq α] [LawfulBEq α] {l : List (α × β)}
    {k : α} {b : β} (h : l.lookup k = some b) : (k, b) ∈ l := by
  induction l with
  | nil => simp [List.lookup] at h
  | cons a rest ih =>
      obtain ⟨a1, a2⟩ := a
      rw [List.lookup] at h
      cases hbeq : k == a1 with
      | true =>
          rw [hbeq] at h
          injection h with h2
          subst h2
          have hk : k = a1 := eq_of_beq hbeq
          subst hk
          exact List.mem_cons_self _ _
      | false =>
          rw [hbeq] at h
          exact List.mem_cons_of_mem _ (ih h)

/-- `_refines` with a present continuation label is a plain membership
test and never raises. -/
theorem refines_some {c : Finset (Nat × Nat)} {l t : Nat} :
    _refines s2n c (some l) t = .ok (decide ((l, t) ∈ c)) := rfl

/-- `_refines` with an absent continuation does not read the relation. -/
theorem refines_none {c c' : Finset (Nat × Nat)} {t : Nat} :
    _refines s2n c none t = _refines s2n c' none t := rfl

/-- A positive `_refines` answer survives enlarging the relation. -/
theorem refines_mono {c c' : Finset (Nat × Nat)} {o : Option Nat} {t : Nat}
    (hsub : c ⊆ c') (h : _refines s2n c o t = .ok true) :
    _refines s2n c' o t = .ok true := by
  cases o with
  | none => exact h
  | some l =>
      rw [refines_some] at h ⊢
      simp at h ⊢
      exact hsub h

/-- A non-raising `_refines` call stays non-raising when the relation is
enlarged. -/
theorem refines_ok_mono {c c' : Finset (Nat × Nat)} {o : Option Nat} {t : Nat}
    {b : Bool} (h : _refines s2n c o t = .ok b) :
    ∃ b', _refines s2n c' o t = .ok b' := by
  cases o with
  | none => exact ⟨b, h⟩
  | some l => exact ⟨_, rfl⟩

/-- The only exception `_refines` can raise is a key error. -/
theorem refines_error {c : Finset (Nat × Nat)} {o : Option Nat} {t : Nat}
    {e : PyErr} (h : _refines s2n c o t = .error e) : e = .keyError := by
  cases o with
  | none =>
      rw [_refines] at h
      cases hl : lookupNode s2n t with
      | none =>
          rw [hl] at h
          injection h with h2
          exact h2.symm
      | some nd => rw [hl] at h; simp at h
  | some l => simp [_refines] at h

/-- The only exception `nextStatement` can raise is the
ambiguous-successors one. -/
theorem nextStatement_error {l : Nat} {e : PyErr}
    (h : nextStatement g l = .error e) : e = .ambiguousSuccessors := by
  rw [nextStatement] at h
  by_cases h0 : (succs g l).length = 0
  · simp [h0] at h
  · by_cases h1 : 1 < (succs g l).length
    · simp [h0, h1] at h
      exact h.symm
    · simp [h0, h1] at h

/-- A positive `refinesNext` answer survives enlarging the relation. -/
theorem refinesNext_mono {c c' : Finset (Nat × Nat)} {l t : Nat}
    (hsub : c ⊆ c') (h : refinesNext s2n g c l t = .ok true) :
    refinesNext s2n g c' l t = .ok true := by
  rw [refinesNext] at h ⊢
  cases hn : nextStatement g l with
  | error e => rw [hn] at h; simp at h
  | ok nx => rw [hn] at h; exact refines_mono hsub h

/-- A non-raising `refinesNext` call stays non-raising when the relation
is enlarged. -/
theorem refinesNext_ok_mono {c c' : Finset (Nat × Nat)} {l t : Nat} {b : Bool}
    (h : refinesNext s2n g c l t = .ok b) :
    ∃ b', refinesNext s2n g c' l t = .ok b' := by
  rw [refinesNext] at h ⊢
  cases hn : nextStatement g l with
  | error e => rw [hn] at h; simp at h
  | ok nx => rw [hn] at h; exact refines_ok_mono h

/-- `refinesNext` raises only key errors or the ambiguous-successors
exception. -/
theorem refinesNext_error {c : Finset (Nat × Nat)} {l t : Nat} {e : PyErr}
    (h : refinesNext s2n g c l t = .error e) :
    e = .keyError ∨ e = .ambiguousSuccessors := by
  rw [refinesNext] at h
  cases hn : nextStatement g l with
  | error e' =>
      rw [hn] at h
      have := nextStatement_error hn
      right
      rw [← this]
      exact ((Except.error.injEq _ _).mp h.symm).symm ▸ this ▸ rfl
  | ok nx => rw [hn] at h; exact Or.inl (refines_error h)

/-- If a raising element exists, `anyM` reports the first raised error;
conversely an `anyM` error comes from some element. -/
theorem anyM_error {α : Type} {f : α → Except PyErr Bool} {l : List α}
    {e : PyErr} (h : anyM f l = .error e) : ∃ a ∈ l, f a = .error e := by
  induction l with
  | nil => simp [anyM] at h
  | cons a rest ih =>
      rw [anyM] at h
      cases hfa : f a with
      | error e' =>
          rw [hfa] at h
          cases h
          exact ⟨a, List.mem_cons_self _ _, hfa⟩
      | ok b =>
          rw [hfa] at h
          cases b with
          | true => simp at h
          | false =>
              obtain ⟨x, hx, hfx⟩ := ih h
              exact ⟨x, List.mem_cons_of_mem _ hx, hfx⟩

/-- An `allM` error comes from some element. -/
theorem allM_error {α : Type} {f : α → Except PyErr Bool} {l : List α}
    {e : PyErr} (h : allM f l = .error e) : ∃ a ∈ l, f a = .error e := by
  induction l with
  | nil => simp [allM] at h
  | cons a rest ih =>
      rw [allM] at h
      cases hfa : f a with
      | error e' =>
          rw [hfa] at h
          cases h
          exact ⟨a, List.mem_cons_self _ _, hfa⟩
      | ok b =>
          rw [hfa] at h
          cases b with
          | false => simp at h
          | true =>
              obtain ⟨x, hx, hfx⟩ := ih h
              exact ⟨x, List.mem_cons_of_mem _ hx, hfx⟩

/-- `anyM` preserves a positive verdict when every element's test is
improved pointwise and never starts raising. -/
theorem anyM_mono {α : Type} {f f' : α → Except PyErr Bool} {l : List α}
    (hm : ∀ a ∈ l, (f a = .ok true → f' a = .ok true) ∧
      (∀ b, f a = .ok b → ∃ b', f' a = .ok b'))
    (h : anyM f l = .ok true) : anyM f' l = .ok true := by
  induction l with
  | nil => simp [anyM] at h
  | cons a rest ih =>
      rw [anyM] at h
      cases hfa : f a with
      | error e => rw [hfa] at h; simp at h
      | ok b =>
          rw [hfa] at h
          cases b with
          | true =>
              rw [anyM, (hm a (List.mem_cons_self _ _)).1 hfa]
          | false =>
              obtain ⟨b', hb'⟩ := (hm a (List.mem_cons_self _ _)).2 false hfa
              have hrest := ih (fun x hx => hm x (List.mem_cons_of_mem _ hx)) h
              rw [anyM, hb']
              cases b' with
              | true => rfl
              | false => exact hrest

/-- A positive `allM` verdict means every element answered positively. -/
theorem allM_eq_true {α : Type} {f : α → Except PyErr Bool} {l : List α}
    (h : allM f l = .ok true) : ∀ a ∈ l, f a = .ok true := by
  induction l with
  | nil => simp
  | cons a rest ih =>
      rw [allM] at h
      cases hfa : f a with
      | error e => rw [hfa] at h; simp at h
      | ok b =>
          rw [hfa] at h
          cases b with
          | false => simp at h
          | true =>
              intro x hx
              rcases List.mem_cons.mp hx with hx | hx
              · subst hx; exact hfa
              · exact ih h x hx

/-- When every element answers positively so does `allM`. -/
theorem allM_of_all {α : Type} {f : α → Except PyErr Bool} {l : List α}
    (h : ∀ a ∈ l, f a = .ok true) : allM f l = .ok true := by
  induction l with
  | nil => rfl
  | cons a rest ih =>
      rw [allM, h a (List.mem_cons_self _ _)]
      exact ih fun x hx => h x (List.mem_cons_of_mem _ hx)

/-- `anyM` over elements that never raise does not raise. -/
theorem anyM_ok {α : Type} {f : α → Except PyErr Bool} {l : List α}
    (h : ∀ a ∈ l, ∃ b, f a = .ok b) : ∃ b, anyM f l = .ok b := by
  induction l with
  | nil => exact ⟨false, rfl⟩
  | cons a rest ih =>
      obtain ⟨b, hb⟩ := h a (List.mem_cons_self _ _)
      rw [anyM, hb]
      cases b with
      | true => exact ⟨true, rfl⟩
      | false => exact ih fun x hx => h x (List.mem_cons_of_mem _ hx)

/-- `allM` over elements that never raise does not raise. -/
theorem allM_ok {α : Type} {f : α → Except PyErr Bool} {l : List α}
    (h : ∀ a ∈ l, ∃ b, f a = .ok b) : ∃ b, allM f l = .ok b := by
  induction l with
  | nil => exact ⟨true, rfl⟩
  | cons a rest ih =>
      obtain ⟨b, hb⟩ := h a (List.mem_cons_self _ _)
      rw [allM, hb]
      cases b with
      | false => exact ⟨false, rfl⟩
      | true => exact ih fun x hx => h x (List.mem_cons_of_mem _ hx)

/-- `_refines` with a present continuation never raises. -/
theorem refines_some_ne_error {c : Finset (Nat × Nat)} {l t : Nat} {e : PyErr} :
    _refines s2n c (some l) t ≠ .error e := by
  simp [_refines]

/-- `anyM` of membership tests over statement entry labels is monotone. -/
theorem anyM_refines_mono {c c' : Finset (Nat × Nat)} {lst : List Stmt} {s : Nat}
    (hsub : c ⊆ c')
    (h : anyM (fun r => _refines s2n c (some r.get_label) s) lst = .ok true) :
    anyM (fun r => _refines s2n c' (some r.get_label) s) lst = .ok true :=
  anyM_mono
    (fun _ _ => ⟨fun hx => refines_mono hsub hx, fun _ hb => refines_ok_mono hb⟩) h

/-- Monotonicity of the kind dispatch: a pair judged compatible against a
relation stays compatible against any larger relation (every occurrence of
the current relation inside `compatibleS` is positive, and the exceptional
control flow is independent of the relation). -/
theorem compatibleS_mono {c c' : Finset (Nat × Nat)} {l s : Nat}
    {statment : Stmt} {node : ProjNode} (hsub : c ⊆ c')
    (h : compatibleS impl s2n g c l s statment node = .ok true) :
    compatibleS impl s2n g c' l s statment node = .ok true := by
  cases statment with
  | Motion lb value =>
      cases node with
      | Motion mp es =>
          simp only [compatibleS] at h ⊢
          by_cases hn : sameMpName value mp
          · rw [if_pos hn] at h ⊢
            exact refinesNext_mono hsub h
          · rw [if_neg hn] at h; simp at h
      | SendMessage r m es => simp [compatibleS] at h
      | ReceiveMessage m es => simp [compatibleS] at h
      | GuardedChoice gss => simp [compatibleS] at h
      | ExternalChoice es => simp [compatibleS] at h
      | End => simp [compatibleS] at h
  | Assign lb =>
      simp only [compatibleS] at h ⊢
      exact refinesNext_mono hsub h
  | While lb condition program =>
      cases node with
      | GuardedChoice gss =>
          simp only [compatibleS] at h ⊢
          by_cases hc : condition = Cond.sTrue
          · rw [if_pos hc] at h ⊢
            exact refines_mono hsub h
          · rw [if_neg hc] at h ⊢
            cases h1 : anyM (fun gs =>
                if impl condition gs.1 then
                  _refines s2n c (some program.get_label) gs.2
                else .ok false) gss with
            | error e => rw [h1] at h; simp at h
            | ok b =>
                rw [h1] at h
                cases b with
                | false => simp at h
                | true =>
                    have h1' : anyM (fun gs =>
                        if impl condition gs.1 then
                          _refines s2n c' (some program.get_label) gs.2
                        else .ok false) gss = .ok true := by
                      refine anyM_mono (fun a _ => ⟨?_, ?_⟩) h1
                      · intro hx
                        by_cases hi : impl condition a.1
                        · rw [if_pos hi] at hx ⊢
                          exact refines_mono hsub hx
                        · rw [if_neg hi] at hx; simp at hx
                      · intro b hb
                        by_cases hi : impl condition a.1
                        · rw [if_pos hi] at hb ⊢
                          exact refines_ok_mono hb
                        · rw [if_neg hi]; exact ⟨false, rfl⟩
                    rw [h1']
                    refine anyM_mono (fun a _ => ⟨?_, ?_⟩) h
                    · intro hx
                      by_cases hi : impl (Cond.sNot condition) a.1
                      · rw [if_pos hi] at hx ⊢
                        exact refinesNext_mono hsub hx
                      · rw [if_neg hi] at hx; simp at hx
                    · intro b hb
                      by_cases hi : impl (Cond.sNot condition) a.1
                      · rw [if_pos hi] at hb ⊢
                        exact refinesNext_ok_mono hb
                      · rw [if_neg hi]; exact ⟨false, rfl⟩
      | Motion mp es =>
          simp only [compatibleS] at h ⊢
          by_cases hc : condition = Cond.sTrue
          · rw [if_pos hc] at h ⊢
            exact refines_mono hsub h
          · rw [if_neg hc] at h; simp at h
      | SendMessage r m es =>
          simp only [compatibleS] at h ⊢
          by_cases hc : condition = Cond.sTrue
          · rw [if_pos hc] at h ⊢
            exact refines_mono hsub h
          · rw [if_neg hc] at h; simp at h
      | ReceiveMessage m es =>
          simp only [compatibleS] at h ⊢
          by_cases hc : condition = Cond.sTrue
          · rw [if_pos hc] at h ⊢
            exact refines_mono hsub h
          · rw [if_neg hc] at h; simp at h
      | ExternalChoice es =>
          simp only [compatibleS] at h ⊢
          by_cases hc : condition = Cond.sTrue
          · rw [if_pos hc] at h ⊢
            exact refines_mono hsub h
          · rw [if_neg hc] at h; simp at h
      | End =>
          simp only [compatibleS] at h ⊢
          by_cases hc : condition = Cond.sTrue
          · rw [if_pos hc] at h ⊢
            exact refines_mono hsub h
          · rw [if_neg hc] at h; simp at h
  | If lb ifs =>
      cases node with
      | GuardedChoice gss => exact h
      | Motion mp es =>
          simp only [compatibleS] at h ⊢
          exact anyM_refines_mono hsub h
      | SendMessage r m es =>
          simp only [compatibleS] at h ⊢
          exact anyM_refines_mono hsub h
      | ReceiveMessage m es =>
          simp only [compatibleS] at h ⊢
          exact anyM_refines_mono hsub h
      | ExternalChoice es =>
          simp only [compatibleS] at h ⊢
          exact anyM_refines_mono hsub h
      | End =>
          simp only [compatibleS] at h ⊢
          exact anyM_refines_mono hsub h
  | Send lb comp msg_type =>
      cases node with
      | SendMessage receiver mtype es =>
          simp only [compatibleS] at h ⊢
          by_cases hn : (comp == receiver && sameMsgName msg_type mtype) = true
          · rw [if_pos hn] at h ⊢
            exact refinesNext_mono hsub h
          · rw [if_neg hn] at h; simp at h
      | Motion mp es => simp [compatibleS] at h
      | ReceiveMessage m es => simp [compatibleS] at h
      | GuardedChoice gss => simp [compatibleS] at h
      | ExternalChoice es => simp [compatibleS] at h
      | End => simp [compatibleS] at h
  | Receive lb motion actions =>
      cases node with
      | ReceiveMessage m es =>
          simp only [compatibleS] at h ⊢
          exact anyM_refines_mono hsub h
      | Motion mp es =>
          simp only [compatibleS] at h ⊢
          exact refines_mono hsub h
      | ExternalChoice es =>
          simp only [compatibleS] at h ⊢
          have hall := allM_eq_true h
          refine allM_of_all fun ns hns => ?_
          have hone := hall ns hns
          cases hmo : _refines s2n c (some motion.get_label) ns with
          | error e => exact absurd hmo refines_some_ne_error
          | ok b =>
              rw [hmo] at hone
              cases b with
              | true => rw [refines_mono hsub hmo]
              | false =>
                  cases hmo' : _refines s2n c' (some motion.get_label) ns with
                  | error e => exact absurd hmo' refines_some_ne_error
                  | ok b' =>
                      cases b' with
                      | true => rfl
                      | false => exact anyM_refines_mono hsub hone
      | SendMessage r m es => simp [compatibleS] at h
      | GuardedChoice gss => simp [compatibleS] at h
      | End => simp [compatibleS] at h
  | Action lb str_msg_type program =>
      cases node with
      | ReceiveMessage msg_type es =>
          simp only [compatibleS] at h ⊢
          by_cases hn : (str_msg_type == msg_type) = true
          · rw [if_pos hn] at h ⊢
            exact refinesNext_mono hsub h
          · rw [if_neg hn] at h; simp at h
      | Motion mp es => simp [compatibleS] at h
      | SendMessage r m es => simp [compatibleS] at h
      | GuardedChoice gss => simp [compatibleS] at h
      | ExternalChoice es => simp [compatibleS] at h
      | End => simp [compatibleS] at h
  | Print lb =>
      simp only [compatibleS] at h ⊢
      exact refinesNext_mono hsub h
  | Skip lb =>
      simp only [compatibleS] at h ⊢
      exact refinesNext_mono hsub h
  | Statement lb cs =>
      simp only [compatibleS] at h ⊢
      exact refinesNext_mono hsub h
  | Exit lb => exact h

/-- Monotonicity of `compatible`. -/
theorem compatible_mono {c c' : Finset (Nat × Nat)} {l s : Nat} (hsub : c ⊆ c')
    (h : compatible impl pl s2n g c l s = .ok true) :
    compatible impl pl s2n g c' l s = .ok true := by
  rw [compatible] at h ⊢
  cases hst : lookupStmt pl l with
  | none =>
      rw [hst] at h
      have h' : (Except.error PyErr.keyError : Except PyErr Bool) = .ok true := h
      cases h'
  | some statment =>
      rw [hst] at h
      cases hnd : lookupNode s2n s with
      | none =>
          rw [hnd] at h
          have h' : (Except.error PyErr.keyError : Except PyErr Bool) = .ok true := h
          cases h'
      | some node =>
          rw [hnd] at h
          have h' : compatibleS impl s2n g c l s statment node = .ok true := h
          show compatibleS impl s2n g c' l s statment node = .ok true
          exact compatibleS_mono hsub h'

/-- The kind dispatch can raise only key errors, the `mode` name error, or
the ambiguous-successors exception, and the last one only from a kind that
consults `nextStatement`. -/
theorem compatibleS_error {c : Finset (Nat × Nat)} {l s : Nat} {st : Stmt}
    {nd : ProjNode} {e : PyErr}
    (h : compatibleS impl s2n g c l s st nd = .error e) :
    (e = .keyError ∨ e = .nameErrorMode ∨ e = .ambiguousSuccessors) ∧
      (e = .ambiguousSuccessors → usesNext st = true) := by
  cases st with
  | Motion lb value =>
      cases nd with
      | Motion mp es =>
          simp only [compatibleS] at h
          by_cases hn : sameMpName value mp
          · rw [if_pos hn] at h
            rcases refinesNext_error h with h2 | h2
            · exact ⟨Or.inl h2, fun _ => rfl⟩
            · exact ⟨Or.inr (Or.inr h2), fun _ => rfl⟩
          · rw [if_neg hn] at h; cases h
      | SendMessage r m es => simp [compatibleS] at h
      | ReceiveMessage m es => simp [compatibleS] at h
      | GuardedChoice gss => simp [compatibleS] at h
      | ExternalChoice es => simp [compatibleS] at h
      | End => simp [compatibleS] at h
  | Assign lb =>
      simp only [compatibleS] at h
      rcases refinesNext_error h with h2 | h2
      · exact ⟨Or.inl h2, fun _ => rfl⟩
      · exact ⟨Or.inr (Or.inr h2), fun _ => rfl⟩
  | While lb condition program =>
      cases nd with
      | GuardedChoice gss =>
          simp only [compatibleS] at h
          by_cases hc : condition = Cond.sTrue
          · rw [if_pos hc] at h
            exact absurd h refines_some_ne_error
          · rw [if_neg hc] at h
            cases h1 : anyM (fun gs =>
                if impl condition gs.1 then
                  _refines s2n c (some program.get_label) gs.2
                else .ok false) gss with
            | error e1 =>
                rw [h1] at h
                obtain ⟨a, _, hfa⟩ := anyM_error h1
                by_cases hi : impl condition a.1
                · rw [if_pos hi] at hfa
                  exact absurd hfa refines_some_ne_error
                · rw [if_neg hi] at hfa; cases hfa
            | ok b =>
                rw [h1] at h
                cases b with
                | false => cases h
                | true =>
                    obtain ⟨a, _, hfa⟩ := anyM_error h
                    by_cases hi : impl (Cond.sNot condition) a.1
                    · rw [if_pos hi] at hfa
                      rcases refinesNext_error hfa with h2 | h2
                      · exact ⟨Or.inl h2, fun _ => rfl⟩
                      · exact ⟨Or.inr (Or.inr h2), fun _ => rfl⟩
                    · rw [if_neg hi] at hfa; cases hfa
      | Motion mp es =>
          simp only [compatibleS] at h
          by_cases hc : condition = Cond.sTrue
          · rw [if_pos hc] at h
            exact absurd h refines_some_ne_error
          · rw [if_neg hc] at h; cases h
      | SendMessage r m es =>
          simp only [compatibleS] at h
          by_cases hc : condition = Cond.sTrue
          · rw [if_pos hc] at h
            exact absurd h refines_some_ne_error
          · rw [if_neg hc] at h; cases h
      | ReceiveMessage m es =>
          simp only [compatibleS] at h
          by_cases hc : condition = Cond.sTrue
          · rw [if_pos hc] at h
            exact absurd h refines_some_ne_error
          · rw [if_neg hc] at h; cases h
      | ExternalChoice es =>
          simp only [compatibleS] at h
          by_cases hc : condition = Cond.sTrue
          · rw [if_pos hc] at h
            exact absurd h refines_some_ne_error
          · rw [if_neg hc] at h; cases h
      | End =>
          simp only [compatibleS] at h
          by_cases hc : condition = Cond.sTrue
          · rw [if_pos hc] at h
            exact absurd h refines_some_ne_error
          · rw [if_neg hc] at h; cases h
  | If lb ifs =>
      cases nd with
      | GuardedChoice gss =>
          cases ifs with
          | nil => cases h
          | cons cnd p rest =>
              have h' : (Except.error PyErr.nameErrorMode : Except PyErr Bool) =
                  .error e := h
              injection h' with h2
              subst h2
              exact ⟨Or.inr (Or.inl rfl), fun hh => absurd hh (by decide)⟩
      | Motion mp es =>
          simp only [compatibleS] at h
          obtain ⟨a, _, hfa⟩ := anyM_error h
          exact absurd hfa refines_some_ne_error
      | SendMessage r m es =>
          simp only [compatibleS] at h
          obtain ⟨a, _, hfa⟩ := anyM_error h
          exact absurd hfa refines_some_ne_error
      | ReceiveMessage m es =>
          simp only [compatibleS] at h
          obtain ⟨a, _, hfa⟩ := anyM_error h
          exact absurd hfa refines_some_ne_error
      | ExternalChoice es =>
          simp only [compatibleS] at h
          obtain ⟨a, _, hfa⟩ := anyM_error h
          exact absurd hfa refines_some_ne_error
      | End =>
          simp only [compatibleS] at h
          obtain ⟨a, _, hfa⟩ := anyM_error h
          exact absurd hfa refines_some_ne_error
  | Send lb comp msg_type =>
      cases nd with
      | SendMessage receiver mtype es =>
          simp only [compatibleS] at h
          by_cases hn : (comp == receiver && sameMsgName msg_type mtype) = true
          · rw [if_pos hn] at h
            rcases refinesNext_error h with h2 | h2
            · exact ⟨Or.inl h2, fun _ => rfl⟩
            · exact ⟨Or.inr (Or.inr h2), fun _ => rfl⟩
          · rw [if_neg hn] at h; cases h
      | Motion mp es => simp [compatibleS] at h
      | ReceiveMessage m es => simp [compatibleS] at h
      | GuardedChoice gss => simp [compatibleS] at h
      | ExternalChoice es => simp [compatibleS] at h
      | End => simp [compatibleS] at h
  | Receive lb motion actions =>
      cases nd with
      | ReceiveMessage m es =>
          simp only [compatibleS] at h
          obtain ⟨a, _, hfa⟩ := anyM_error h
          exact absurd hfa refines_some_ne_error
      | Motion mp es =>
          simp only [compatibleS] at h
          exact absurd h refines_some_ne_error
      | ExternalChoice es =>
          simp only [compatibleS] at h
          obtain ⟨a, _, hfa⟩ := allM_error h
          cases hmo : _refines s2n c (some motion.get_label) a with
          | error e1 => exact absurd hmo refines_some_ne_error
          | ok b =>
              rw [hmo] at hfa
              cases b with
              | true => cases hfa
              | false =>
                  obtain ⟨x, _, hfx⟩ := anyM_error hfa
                  exact absurd hfx refines_some_ne_error
      | SendMessage r m es => simp [compatibleS] at h
      | GuardedChoice gss => simp [compatibleS] at h
      | End => simp [compatibleS] at h
  | Action lb str_msg_type program =>
      cases nd with
      | ReceiveMessage msg_type es =>
          simp only [compatibleS] at h
          by_cases hn : (str_msg_type == msg_type) = true
          · rw [if_pos hn] at h
            rcases refinesNext_error h with h2 | h2
            · exact ⟨Or.inl h2, fun _ => rfl⟩
            · exact ⟨Or.inr (Or.inr h2), fun _ => rfl⟩
          · rw [if_neg hn] at h; cases h
      | Motion mp es => simp [compatibleS] at h
      | SendMessage r m es => simp [compatibleS] at h
      | GuardedChoice gss => simp [compatibleS] at h
      | ExternalChoice es => simp [compatibleS] at h
      | End => simp [compatibleS] at h
  | Print lb =>
      simp only [compatibleS] at h
      rcases refinesNext_error h with h2 | h2
      · exact ⟨Or.inl h2, fun _ => rfl⟩
      · exact ⟨Or.inr (Or.inr h2), fun _ => rfl⟩
  | Skip lb =>
      simp only [compatibleS] at h
      rcases refinesNext_error h with h2 | h2
      · exact ⟨Or.inl h2, fun _ => rfl⟩
      · exact ⟨Or.inr (Or.inr h2), fun _ => rfl⟩
  | Statement lb cs =>
      simp only [compatibleS] at h
      rcases refinesNext_error h with h2 | h2
      · exact ⟨Or.inl h2, fun _ => rfl⟩
      · exact ⟨Or.inr (Or.inr h2), fun _ => rfl⟩
  | Exit lb => cases h

/-- `compatible` never raises the artificial fuel marker, and raises the
ambiguous-successors exception only when the program node at the label is
of a kind that consults `nextStatement`. -/
theorem compatible_error {c : Finset (Nat × Nat)} {l s : Nat} {e : PyErr}
    (h : compatible impl pl s2n g c l s = .error e) :
    e ≠ .fuelOut ∧ (e = .ambiguousSuccessors →
      ∃ st, lookupStmt pl l = some st ∧ usesNext st = true) := by
  rw [compatible] at h
  cases hst : lookupStmt pl l with
  | none =>
      rw [hst] at h
      have h' : (Except.error PyErr.keyError : Except PyErr Bool) = .error e := h
      injection h' with h2
      subst h2
      exact ⟨by decide, fun hh => absurd hh (by decide)⟩
  | some st =>
      rw [hst] at h
      cases hnd : lookupNode s2n s with
      | none =>
          rw [hnd] at h
          have h' : (Except.error PyErr.keyError : Except PyErr Bool) = .error e := h
          injection h' with h2
          subst h2
          exact ⟨by decide, fun hh => absurd hh (by decide)⟩
      | some nd =>
          rw [hnd] at h
          have h' : compatibleS impl s2n g c l s st nd = .error e := h
          obtain ⟨hor, himp⟩ := compatibleS_error h'
          refine ⟨?_, fun hh => ⟨st, rfl, himp hh⟩⟩
          rcases hor with rfl | rfl | rfl <;> decide

/-- One snapshot run only removes pairs. -/
theorem passStates_subset {l : Nat} {snap : List Nat} {c c' : Finset (Nat × Nat)}
    {ch ch' : Bool} {r e r' e' : Nat}
    (h : passStates impl pl s2n g l snap c ch r e = .ok (c', ch', r', e')) :
    c' ⊆ c := by
  induction snap generalizing c ch r e with
  | nil =>
      rw [passStates] at h
      simp at h
      obtain ⟨h1, _⟩ := h
      subst h1
      exact Finset.Subset.refl _
  | cons s rest ih =>
      rw [passStates] at h
      cases hc : compatible impl pl s2n g c l s with
      | error e1 => rw [hc] at h; cases h
      | ok b =>
          rw [hc] at h
          cases b with
          | true => exact ih h
          | false => exact (ih h).trans (Finset.erase_subset _ _)

/-- One full pass only removes pairs. -/
theorem passLabels_subset {ls states : List Nat} {c c' : Finset (Nat × Nat)}
    {ch ch' : Bool} {r e r' e' : Nat}
    (h : passLabels impl pl s2n g ls states c ch r e = .ok (c', ch', r', e')) :
    c' ⊆ c := by
  induction ls generalizing c ch r e with
  | nil =>
      rw [passLabels] at h
      simp at h
      obtain ⟨h1, _⟩ := h
      subst h1
      exact Finset.Subset.refl _
  | cons l rest ih =>
      rw [passLabels] at h
      cases hp : passStates impl pl s2n g l
          (states.filter (fun s => decide ((l, s) ∈ c))) c ch r e with
      | error e1 => rw [hp] at h; cases h
      | ok out =>
          rw [hp] at h
          obtain ⟨c2, ch2, r2, e2⟩ := out
          exact (ih h).trans (passStates_subset hp)

/-- The core invariant of one snapshot run: the relation shrinks, the
changed flag is set exactly when the cardinality strictly drops, the
removal counter accounts for the dropped cardinality, and every snapshot
entry costs one `compatible` evaluation. -/
theorem passStates_inv {l : Nat} {snap : List Nat} {c c' : Finset (Nat × Nat)}
    {ch ch' : Bool} {r e r' e' : Nat} (hnd : snap.Nodup)
    (hmem : ∀ x ∈ snap, (l, x) ∈ c)
    (h : passStates impl pl s2n g l snap c ch r e = .ok (c', ch', r', e')) :
    c' ⊆ c ∧ (ch' = ch ∨ c'.card < c.card) ∧ r' + c'.card = r + c.card ∧
      e' = e + snap.length := by
  induction snap generalizing c ch r e with
  | nil =>
      rw [passStates] at h
      simp at h
      obtain ⟨h1, h2, h3, h4⟩ := h
      subst h1; subst h2; subst h3; subst h4
      exact ⟨Finset.Subset.refl _, Or.inl rfl, rfl, rfl⟩
  | cons s rest ih =>
      rw [passStates] at h
      have hs : (l, s) ∈ c := hmem s (List.mem_cons_self _ _)
      cases hc : compatible impl pl s2n g c l s with
      | error e1 => rw [hc] at h; cases h
      | ok b =>
          rw [hc] at h
          cases b with
          | true =>
              obtain ⟨h1, h2, h3, h4⟩ := ih (List.Nodup.of_cons hnd)
                (fun x hx => hmem x (List.mem_cons_of_mem _ hx)) h
              refine ⟨h1, h2, h3, ?_⟩
              rw [h4, List.length_cons]
              omega
          | false =>
              have hrest : ∀ x ∈ rest, (l, x) ∈ c.erase (l, s) := by
                intro x hx
                have hxs : x ≠ s := by
                  intro hxe
                  subst hxe
                  exact (List.nodup_cons.mp hnd).1 hx
                exact Finset.mem_erase.mpr
                  ⟨by simp [hxs], hmem x (List.mem_cons_of_mem _ hx)⟩
              obtain ⟨h1, h2, h3, h4⟩ := ih (List.Nodup.of_cons hnd) hrest h
              have hcard : (c.erase (l, s)).card + 1 = c.card :=
                Finset.card_erase_add_one hs
              refine ⟨h1.trans (Finset.erase_subset _ _), ?_, ?_, ?_⟩
              · right
                have := Finset.card_le_card h1
                omega
              · omega
              · rw [h4, List.length_cons]
                omega

/-- A snapshot run that reports no change evaluated every snapshot entry
positively against the untouched relation. -/
theorem passStates_nochange {l : Nat} {snap : List Nat}
    {c c' : Finset (Nat × Nat)} {ch ch' : Bool} {r e r' e' : Nat}
    (h : passStates impl pl s2n g l snap c ch r e = .ok (c', ch', r', e'))
    (hch : ch' = false) :
    ch = false ∧ c' = c ∧ r' = r ∧
      ∀ s ∈ snap, compatible impl pl s2n g c l s = .ok true := by
  induction snap generalizing c ch r e with
  | nil =>
      rw [passStates] at h
      simp at h
      obtain ⟨h1, h2, h3, _⟩ := h
      subst h1; subst h2; subst h3
      exact ⟨hch, rfl, rfl, by simp⟩
  | cons s rest ih =>
      rw [passStates] at h
      cases hc : compatible impl pl s2n g c l s with
      | error e1 => rw [hc] at h; cases h
      | ok b =>
          rw [hc] at h
          cases b with
          | true =>
              obtain ⟨h1, h2, h3, h4⟩ := ih h
              refine ⟨h1, h2, h3, fun x hx => ?_⟩
              rcases List.mem_cons.mp hx with hx | hx
              · subst hx; exact hc
              · exact h4 x hx
          | false =>
              obtain ⟨h1, _, _, _⟩ := ih h
              cases h1

/-- A closed subrelation survives a snapshot run. -/
theorem passStates_maximal {l : Nat} {snap : List Nat}
    {c c' R : Finset (Nat × Nat)} {ch ch' : Bool} {r e r' e' : Nat}
    (hR : ∀ p ∈ R, compatible impl pl s2n g R p.1 p.2 = .ok true) (hRc : R ⊆ c)
    (h : passStates impl pl s2n g l snap c ch r e = .ok (c', ch', r', e')) :
    R ⊆ c' := by
  induction snap generalizing c ch r e with
  | nil =>
      rw [passStates] at h
      simp at h
      obtain ⟨h1, _⟩ := h
      subst h1
      exact hRc
  | cons s rest ih =>
      rw [passStates] at h
      cases hc : compatible impl pl s2n g c l s with
      | error e1 => rw [hc] at h; cases h
      | ok b =>
          rw [hc] at h
          cases b with
          | true => exact ih hRc h
          | false =>
              refine ih ?_ h
              intro p hp
              refine Finset.mem_erase.mpr ⟨?_, hRc hp⟩
              intro hpe
              subst hpe
              have := compatible_mono hRc (hR _ hp)
              rw [hc] at this
              cases this

/-- A duplicate-free snapshot of a row is no longer than the row itself. -/
theorem snapshot_len_le {states : List Nat} (hnd : states.Nodup)
    (c : Finset (Nat × Nat)) (l : Nat) :
    (states.filter (fun s => decide ((l, s) ∈ c))).length ≤
      (c.filter (fun p => p.1 = l)).card := by
  set t := states.filter (fun s => decide ((l, s) ∈ c)) with ht
  have htnd : t.Nodup := hnd.filter _
  have hlen : t.toFinset.card = t.length := List.toFinset_card_of_nodup htnd
  have himg : t.toFinset.image (fun x => (l, x)) ⊆
      c.filter (fun p => p.1 = l) := by
    intro p hp
    obtain ⟨x, hx, hpx⟩ := Finset.mem_image.mp hp
    have hx' := List.mem_toFinset.mp hx
    rw [ht] at hx'
    obtain ⟨_, hmem⟩ := List.mem_filter.mp hx'
    subst hpx
    exact Finset.mem_filter.mpr ⟨of_decide_eq_true hmem, rfl⟩
  have hinj : Function.Injective (fun x : Nat => (l, x)) := by
    intro a b hab
    exact congrArg Prod.snd hab
  calc t.length = t.toFinset.card := hlen.symm
    _ = (t.toFinset.image (fun x => (l, x))).card :=
        (Finset.card_image_of_injective _ hinj).symm
    _ ≤ (c.filter (fun p => p.1 = l)).card := Finset.card_le_card himg

/-- The core invariant of one full pass: shrinking, the changed flag
tracks a strict cardinality drop, removals account for the dropped
cardinality, and the evaluation count is bounded by the sum of the row
sizes of the traversed labels. -/
theorem passLabels_inv {ls states : List Nat} {c c' : Finset (Nat × Nat)}
    {ch ch' : Bool} {r e r' e' : Nat} (hnd : states.Nodup)
    (h : passLabels impl pl s2n g ls states c ch r e = .ok (c', ch', r', e')) :
    c' ⊆ c ∧ (ch' = ch ∨ c'.card < c.card) ∧ r' + c'.card = r + c.card ∧
      e' ≤ e + (ls.map fun l => (c.filter fun p => p.1 = l).card).sum := by
  induction ls generalizing c ch r e with
  | nil =>
      rw [passLabels] at h
      simp at h
      obtain ⟨h1, h2, h3, h4⟩ := h
      subst h1; subst h2; subst h3; subst h4
      exact ⟨Finset.Subset.refl _, Or.inl rfl, rfl, by simp⟩
  | cons l rest ih =>
      rw [passLabels] at h
      cases hp : passStates impl pl s2n g l
          (states.filter (fun s => decide ((l, s) ∈ c))) c ch r e with
      | error e1 => rw [hp] at h; cases h
      | ok out =>
          rw [hp] at h
          obtain ⟨c2, ch2, r2, e2⟩ := out
          have hsnap : ∀ x ∈ states.filter (fun s => decide ((l, s) ∈ c)),
              (l, x) ∈ c := by
            intro x hx
            exact of_decide_eq_true (List.mem_filter.mp hx).2
          obtain ⟨hs1, hs2, hs3, hs4⟩ := passStates_inv (hnd.filter _) hsnap hp
          obtain ⟨hi1, hi2, hi3, hi4⟩ := ih h
          refine ⟨hi1.trans hs1, ?_, by omega, ?_⟩
          · rcases hi2 with hi2 | hi2
            · subst hi2
              rcases hs2 with hs2 | hs2
              · exact Or.inl hs2
              · right
                have := Finset.card_le_card hi1
                omega
            · right
              have := Finset.card_le_card hs1
              omega
          · have hrow := snapshot_len_le hnd c l
            have hsum : ((rest.map fun l' => (c2.filter fun p => p.1 = l').card).sum) ≤
                ((rest.map fun l' => (c.filter fun p => p.1 = l').card).sum) := by
              refine List.sum_le_sum ?_
              intro i _
              exact Finset.card_le_card (Finset.filter_subset_filter _ hs1)
            rw [List.map_cons, List.sum_cons]
            omega

/-- A pass that reports no change leaves the relation untouched and
certifies every surviving pair of the traversed labels. -/
theorem passLabels_nochange {ls states : List Nat} {c c' : Finset (Nat × Nat)}
    {ch ch' : Bool} {r e r' e' : Nat}
    (h : passLabels impl pl s2n g ls states c ch r e = .ok (c', ch', r', e'))
    (hch : ch' = false) :
    ch = false ∧ c' = c ∧ r' = r ∧
      ∀ l ∈ ls, ∀ x, (l, x) ∈ c → x ∈ states →
        compatible impl pl s2n g c l x = .ok true := by
  induction ls generalizing c ch r e with
  | nil =>
      rw [passLabels] at h
      simp at h
      obtain ⟨h1, h2, h3, _⟩ := h
      subst h1; subst h2; subst h3
      exact ⟨hch, rfl, rfl, by simp⟩
  | cons l rest ih =>
      rw [passLabels] at h
      cases hp : passStates impl pl s2n g l
          (states.filter (fun s => decide ((l, s) ∈ c))) c ch r e with
      | error e1 => rw [hp] at h; cases h
      | ok out =>
          rw [hp] at h
          obtain ⟨c2, ch2, r2, e2⟩ := out
          obtain ⟨hi1, hi2, hi3, hi4⟩ := ih h
          obtain ⟨hn1, hn2, hn3, hn4⟩ := passStates_nochange hp hi1
          subst hn2
          refine ⟨hn1, hi2, by omega, fun l' hl' x hxc hxs => ?_⟩
          rcases List.mem_cons.mp hl' with hl' | hl'
          · subst hl'
            exact hn4 x (List.mem_filter.mpr ⟨hxs, decide_eq_true hxc⟩)
          · exact hi4 l' hl' x hxc hxs

/-- A closed subrelation survives a full pass. -/
theorem passLabels_maximal {ls states : List Nat} {c c' R : Finset (Nat × Nat)}
    {ch ch' : Bool} {r e r' e' : Nat}
    (hR : ∀ p ∈ R, compatible impl pl s2n g R p.1 p.2 = .ok true) (hRc : R ⊆ c)
    (h : passLabels impl pl s2n g ls states c ch r e = .ok (c', ch', r', e')) :
    R ⊆ c' := by
  induction ls generalizing c ch r e with
  | nil =>
      rw [passLabels] at h
      simp at h
      obtain ⟨h1, _⟩ := h
      subst h1
      exact hRc
  | cons l rest ih =>
      rw [passLabels] at h
      cases hp : passStates impl pl s2n g l
          (states.filter (fun s => decide ((l, s) ∈ c))) c ch r e with
      | error e1 => rw [hp] at h; cases h
      | ok out =>
          rw [hp] at h
          obtain ⟨c2, ch2, r2, e2⟩ := out
          exact ih (passStates_maximal hR hRc hp) h

/-- Rows of distinct labels are disjoint, so their sizes sum below the
size of the whole relation. -/
theorem sum_rows_le {ls : List Nat} (hnd : ls.Nodup) (c : Finset (Nat × Nat)) :
    (ls.map fun l => (c.filter fun p => p.1 = l).card).sum ≤ c.card := by
  induction ls generalizing c with
  | nil => simp
  | cons l rest ih =>
      rw [List.map_cons, List.sum_cons]
      have hnd' := List.nodup_cons.mp hnd
      have hrest : (rest.map fun l' => (c.filter fun p => p.1 = l').card).sum =
          (rest.map fun l' =>
            ((c.filter fun p => ¬p.1 = l).filter fun p => p.1 = l').card).sum := by
        refine congrArg List.sum (List.map_congr_left ?_)
        intro l' hl'
        have hne : l' ≠ l := fun he => hnd'.1 (he ▸ hl')
        congr 1
        ext p
        simp only [Finset.mem_filter]
        constructor
        · rintro ⟨hpc, hpl⟩
          exact ⟨⟨hpc, by rw [hpl]; exact hne⟩, hpl⟩
        · rintro ⟨⟨hpc, _⟩, hpl⟩
          exact ⟨hpc, hpl⟩
      have hsplit : (c.filter fun p => p.1 = l).card +
          (c.filter fun p => ¬p.1 = l).card = c.card :=
        Finset.filter_card_add_filter_neg_card_eq_card _
      have hr := ih hnd'.2 (c.filter fun p => ¬p.1 = l)
      rw [hrest]
      omega

/-- A snapshot run raises no fuel marker. -/
theorem passStates_ne_fuelOut {l : Nat} {snap : List Nat}
    {c : Finset (Nat × Nat)} {ch : Bool} {r e : Nat} {er : PyErr}
    (h : passStates impl pl s2n g l snap c ch r e = .error er) :
    er ≠ .fuelOut := by
  induction snap generalizing c ch r e with
  | nil => rw [passStates] at h; cases h
  | cons s rest ih =>
      rw [passStates] at h
      cases hc : compatible impl pl s2n g c l s with
      | error e1 =>
          rw [hc] at h
          injection h with h2
          subst h2
          exact (compatible_error hc).1
      | ok b =>
          rw [hc] at h
          cases b with
          | true => exact ih h
          | false => exact ih h

/-- A pass raises no fuel marker. -/
theorem passLabels_ne_fuelOut {ls states : List Nat} {c : Finset (Nat × Nat)}
    {ch : Bool} {r e : Nat} {er : PyErr}
    (h : passLabels impl pl s2n g ls states c ch r e = .error er) :
    er ≠ .fuelOut := by
  induction ls generalizing c ch r e with
  | nil => rw [passLabels] at h; cases h
  | cons l rest ih =>
      rw [passLabels] at h
      cases hp : passStates impl pl s2n g l
          (states.filter (fun s => decide ((l, s) ∈ c))) c ch r e with
      | error e1 =>
          rw [hp] at h
          injection h with h2
          subst h2
          exact passStates_ne_fuelOut hp
      | ok out =>
          rw [hp] at h
          obtain ⟨c2, ch2, r2, e2⟩ := out
          exact ih h

/-- The fixpoint loop only removes pairs. -/
theorem checkLoop_subset {ls states : List Nat} {fuel : Nat}
    {c R : Finset (Nat × Nat)} {r e r' e' : Nat}
    (h : checkLoop impl pl s2n g ls states fuel c r e = .ok (R, r', e')) :
    R ⊆ c := by
  induction fuel generalizing c r e with
  | zero => rw [checkLoop] at h; cases h
  | succ f ih =>
      rw [checkLoop] at h
      cases hp : passLabels impl pl s2n g ls states c false r e with
      | error e1 => rw [hp] at h; cases h
      | ok out =>
          rw [hp] at h
          obtain ⟨c2, ch2, r2, e2⟩ := out
          cases ch2 with
          | false =>
              have h' : (Except.ok (c2, r2, e2) :
                  Except PyErr (Finset (Nat × Nat) × Nat × Nat)) = .ok (R, r', e') := h
              injection h' with h2
              obtain ⟨hc2, _⟩ := Prod.mk.injEq .. ▸ h2
              rw [← (Prod.mk.injEq ..).mp h2 |>.1]
              exact passLabels_subset hp
          | true =>
              have h' : checkLoop impl pl s2n g ls states f c2 r2 e2 =
                  .ok (R, r', e') := h
              exact (ih h').trans (passLabels_subset hp)

/-- The final relation of the loop is closed under `compatible` on the
traversed labels and states. -/
theorem checkLoop_closed {ls states : List Nat} {fuel : Nat}
    {c R : Finset (Nat × Nat)} {r e r' e' : Nat}
    (h : checkLoop impl pl s2n g ls states fuel c r e = .ok (R, r', e')) :
    ∀ l ∈ ls, ∀ x, (l, x) ∈ R → x ∈ states →
      compatible impl pl s2n g R l x = .ok true := by
  induction fuel generalizing c r e with
  | zero => rw [checkLoop] at h; cases h
  | succ f ih =>
      rw [checkLoop] at h
      cases hp : passLabels impl pl s2n g ls states c false r e with
      | error e1 => rw [hp] at h; cases h
      | ok out =>
          rw [hp] at h
          obtain ⟨c2, ch2, r2, e2⟩ := out
          cases ch2 with
          | false =>
              have h' : (Except.ok (c2, r2, e2) :
                  Except PyErr (Finset (Nat × Nat) × Nat × Nat)) = .ok (R, r', e') := h
              injection h' with h2
              have hc2R : c2 = R := ((Prod.mk.injEq ..).mp h2).1
              obtain ⟨_, hceq, _, hall⟩ := passLabels_nochange hp rfl
              subst hc2R
              subst hceq
              intro l hl x hx hxs
              exact hall l hl x hx hxs
          | true =>
              have h' : checkLoop impl pl s2n g ls states f c2 r2 e2 =
                  .ok (R, r', e') := h
              exact ih h'

/-- A closed subrelation of the initial relation survives the loop. -/
theorem checkLoop_maximal {ls states : List Nat} {fuel : Nat}
    {c R R' : Finset (Nat × Nat)} {r e r' e' : Nat}
    (hR : ∀ p ∈ R', compatible impl pl s2n g R' p.1 p.2 = .ok true)
    (hRc : R' ⊆ c)
    (h : checkLoop impl pl s2n g ls states fuel c r e = .ok (R, r', e')) :
    R' ⊆ R := by
  induction fuel generalizing c r e with
  | zero => rw [checkLoop] at h; cases h
  | succ f ih =>
      rw [checkLoop] at h
      cases hp : passLabels impl pl s2n g ls states c false r e with
      | error e1 => rw [hp] at h; cases h
      | ok out =>
          rw [hp] at h
          obtain ⟨c2, ch2, r2, e2⟩ := out
          cases ch2 with
          | false =>
              have h' : (Except.ok (c2, r2, e2) :
                  Except PyErr (Finset (Nat × Nat) × Nat × Nat)) = .ok (R, r', e') := h
              injection h' with h2
              have hc2R : c2 = R := ((Prod.mk.injEq ..).mp h2).1
              subst hc2R
              exact passLabels_maximal hR hRc hp
          | true =>
              have h' : checkLoop impl pl s2n g ls states f c2 r2 e2 =
                  .ok (R, r', e') := h
              exact ih (passLabels_maximal hR hRc hp) h'

/-- The loop's removal counter accounts exactly for the dropped
cardinality. -/
theorem checkLoop_removed {ls states : List Nat} {fuel : Nat}
    {c R : Finset (Nat × Nat)} {r e r' e' : Nat} (hnd : states.Nodup)
    (h : checkLoop impl pl s2n g ls states fuel c r e = .ok (R, r', e')) :
    r' + R.card = r + c.card := by
  induction fuel generalizing c r e with
  | zero => rw [checkLoop] at h; cases h
  | succ f ih =>
      rw [checkLoop] at h
      cases hp : passLabels impl pl s2n g ls states c false r e with
      | error e1 => rw [hp] at h; cases h
      | ok out =>
          rw [hp] at h
          obtain ⟨c2, ch2, r2, e2⟩ := out
          obtain ⟨_, _, hcard, _⟩ := passLabels_inv hnd hp
          cases ch2 with
          | false =>
              have h' : (Except.ok (c2, r2, e2) :
                  Except PyErr (Finset (Nat × Nat) × Nat × Nat)) = .ok (R, r', e') := h
              injection h' with h2
              have hinj := (Prod.mk.injEq ..).mp h2
              have hc2R : c2 = R := hinj.1
              have hr2 : r2 = r' := ((Prod.mk.injEq ..).mp hinj.2).1
              subst hc2R
              subst hr2
              omega
          | true =>
              have h' : checkLoop impl pl s2n g ls states f c2 r2 e2 =
                  .ok (R, r', e') := h
              have := ih h'
              omega

/-- The loop's evaluation counter is bounded by the fuel times the size of
the starting relation. -/
theorem checkLoop_evals {ls states : List Nat} {fuel : Nat}
    {c R : Finset (Nat × Nat)} {r e r' e' : Nat} (hndl : ls.Nodup)
    (hnds : states.Nodup)
    (h : checkLoop impl pl s2n g ls states fuel c r e = .ok (R, r', e')) :
    e' ≤ e + fuel * c.card := by
  induction fuel generalizing c r e with
  | zero => rw [checkLoop] at h; cases h
  | succ f ih =>
      rw [checkLoop] at h
      cases hp : passLabels impl pl s2n g ls states c false r e with
      | error e1 => rw [hp] at h; cases h
      | ok out =>
          rw [hp] at h
          obtain ⟨c2, ch2, r2, e2⟩ := out
          obtain ⟨hsub, _, _, hev⟩ := passLabels_inv hnds hp
          have hrows := sum_rows_le hndl c
          cases ch2 with
          | false =>
              have h' : (Except.ok (c2, r2, e2) :
                  Except PyErr (Finset (Nat × Nat) × Nat × Nat)) = .ok (R, r', e') := h
              injection h' with h2
              have hinj := (Prod.mk.injEq ..).mp h2
              have he2 : e2 = e' := ((Prod.mk.injEq ..).mp hinj.2).2
              subst he2
              have : (f + 1) * c.card = f * c.card + c.card := by ring
              omega
          | true =>
              have h' : checkLoop impl pl s2n g ls states f c2 r2 e2 =
                  .ok (R, r', e') := h
              have hc2 := Finset.card_le_card hsub
              have hi := ih h'
              have hmul : f * c2.card ≤ f * c.card :=
                Nat.mul_le_mul_left f hc2
              have : (f + 1) * c.card = f * c.card + c.card := by ring
              omega

/-- With fuel exceeding the size of the starting relation the loop never
reports fuel exhaustion. -/
theorem checkLoop_ne_fuelOut {ls states : List Nat} {fuel : Nat}
    {c : Finset (Nat × Nat)} {r e : Nat} (hnd : states.Nodup)
    (hfuel : c.card < fuel) :
    checkLoop impl pl s2n g ls states fuel c r e ≠ .error .fuelOut := by
  induction fuel generalizing c r e with
  | zero => exact absurd hfuel (Nat.not_lt_zero _)
  | succ f ih =>
      rw [checkLoop]
      cases hp : passLabels impl pl s2n g ls states c false r e with
      | error e1 =>
          intro hcon
          injection hcon with h2
          exact passLabels_ne_fuelOut hp h2
      | ok out =>
          obtain ⟨c2, ch2, r2, e2⟩ := out
          cases ch2 with
          | false => intro hcon; cases hcon
          | true =>
              obtain ⟨_, hch, _, _⟩ := passLabels_inv hnd hp
              rcases hch with hch | hch
              · cases hch
              · have : c2.card < f := by omega
                exact ih this

end Lemmas

/-- C1: the claim says `compatible` on an `If` program node against a
`GuardedChoice` projection node returns, without raising, true iff every
`If` branch is matched by some guarded branch (here the branch
`(atom 0, Skip 1)` is matched by the guarded branch `(atom 0, 6)` under an
all-accepting oracle with `(1, 6)` in the relation, so the intended rule
yields true) — but the source's generator iterates over
`mode.guarded_states` with `mode` unbound, so the call raises `NameError`
instead of returning that verdict. -/
theorem compatible_if_guardedChoice_raises :
    ifGuardedChoiceRule oracleT ({(1, 6)} : Finset (Nat × Nat))
      (.cons (.atom 0) (.Skip 1) .nil) [(.atom 0, 6)] = true ∧
    compatible oracleT (labelsOf progIf) s2nGC [] {(1, 6)} 0 5 =
      .error .nameErrorMode :=
  ⟨by decide, rfl⟩

/-- C2: the loop of `check()` computes the greatest relation closed under
`compatible` inside the universal relation: its result is a subrelation of
the universal one, is closed, contains every closed subrelation, and the
verdict of `check()` is exactly membership of
`(program root label, projection start state)` in it. -/
theorem check_greatest_fixpoint (impl : Cond → Cond → Bool) (prog : Stmt)
    (proj : Projection) (R : Finset (Nat × Nat)) (r e : Nat)
    (h : checkLoop impl (labelsOf prog) proj.state_to_node (cfaOf prog)
      (labelList prog) (stateList proj) ((initCompat prog proj).card + 1)
      (initCompat prog proj) 0 0 = .ok (R, r, e)) :
    R ⊆ initCompat prog proj ∧
    ClosedUnder impl (labelsOf prog) proj.state_to_node (cfaOf prog) R ∧
    (∀ R', R' ⊆ initCompat prog proj →
      ClosedUnder impl (labelsOf prog) proj.state_to_node (cfaOf prog) R' →
      R' ⊆ R) ∧
    check impl prog proj =
      .ok (decide ((prog.get_label, proj.start_state) ∈ R)) := by
  have hsub := checkLoop_subset h
  refine ⟨hsub, ?_, ?_, ?_⟩
  · intro p hp
    have hpi : p ∈ initCompat prog proj := hsub hp
    rw [initCompat, Finset.mem_product] at hpi
    obtain ⟨hl, hs⟩ := hpi
    have hl' : p.1 ∈ labelList prog := List.mem_toFinset.mp hl
    have hs' : p.2 ∈ stateList proj := List.mem_toFinset.mp hs
    exact checkLoop_closed h p.1 hl' p.2 (by rwa [Prod.mk.eta]) hs'
  · intro R' hR'sub hR'cl
    exact checkLoop_maximal hR'cl hR'sub h
  · simp only [check, h]

/-- Witness for C2 at the one-statement program `exit` against the
one-state `End` projection. -/
theorem check_greatest_fixpoint_witness :
    checkLoop oracleF (labelsOf progExit) projEnd.state_to_node (cfaOf progExit)
      (labelList progExit) (stateList projEnd)
      ((initCompat progExit projEnd).card + 1) (initCompat progExit projEnd)
      0 0 = .ok ({(0, 0)}, 0, 1) ∧
    ({(0, 0)} : Finset (Nat × Nat)) ⊆ initCompat progExit projEnd ∧
    ClosedUnder oracleF (labelsOf progExit) projEnd.state_to_node
      (cfaOf progExit) {(0, 0)} ∧
    (∀ R', R' ⊆ initCompat progExit projEnd →
      ClosedUnder oracleF (labelsOf progExit) projEnd.state_to_node
        (cfaOf progExit) R' → R' ⊆ {(0, 0)}) ∧
    check oracleF progExit projEnd =
      .ok (decide ((progExit.get_label, projEnd.start_state) ∈
        ({(0, 0)} : Finset (Nat × Nat)))) :=
  ⟨rfl, check_greatest_fixpoint oracleF progExit projEnd {(0, 0)} 0 1 rfl⟩

/-- C3: the main loop of `check()` terminates — with the iteration budget
`|compat| + 1` the fuel marker is never reached — the relation only
shrinks, and the total number of removals across all passes is at most
`|L| * |S|`. -/
theorem check_loop_terminates_bounded (impl : Cond → Cond → Bool)
    (prog : Stmt) (proj : Projection) :
    checkLoop impl (labelsOf prog) proj.state_to_node (cfaOf prog)
      (labelList prog) (stateList proj) ((initCompat prog proj).card + 1)
      (initCompat prog proj) 0 0 ≠ .error .fuelOut ∧
    ∀ R r e, checkLoop impl (labelsOf prog) proj.state_to_node (cfaOf prog)
        (labelList prog) (stateList proj) ((initCompat prog proj).card + 1)
        (initCompat prog proj) 0 0 = .ok (R, r, e) →
      R ⊆ initCompat prog proj ∧
      r ≤ (labelList prog).toFinset.card * (stateList proj).toFinset.card := by
  have hcard : (initCompat prog proj).card =
      (labelList prog).toFinset.card * (stateList proj).toFinset.card := by
    rw [initCompat]
    exact Finset.card_product _ _
  constructor
  · exact checkLoop_ne_fuelOut (List.nodup_dedup _) (Nat.lt_succ_self _)
  · intro R r e h
    refine ⟨checkLoop_subset h, ?_⟩
    have hrem := checkLoop_removed (List.nodup_dedup _) h
    omega

/-- Witness for C3 at the three-skip chain program, where the loop removes
all four pairs. -/
theorem check_loop_terminates_bounded_witness :
    checkLoop oracleF (labelsOf chainProg) chainProj.state_to_node
      (cfaOf chainProg) (labelList chainProg) (stateList chainProj)
      ((initCompat chainProg chainProj).card + 1)
      (initCompat chainProg chainProj) 0 0 = .ok (∅, 4, 10) ∧
    (∅ : Finset (Nat × Nat)) ⊆ initCompat chainProg chainProj ∧
    4 ≤ (labelList chainProg).toFinset.card * (stateList chainProj).toFinset.card :=
  ⟨rfl,
    (check_loop_terminates_bounded oracleF chainProg chainProj).2 ∅ 4 10 rfl⟩

/-- C4: across the passes of the loop, `compat[l]` never grows: after one
pass, the row of every label is a subset of its row before the pass (the
relation only shrinks; no pair is ever added back). -/
theorem pass_never_grows (impl : Cond → Cond → Bool) (pl : List (Nat × Stmt))
    (s2n : List (Nat × ProjNode)) (g : CFA) (ls states : List Nat)
    (c c' : Finset (Nat × Nat)) (ch ch' : Bool) (r e r' e' : Nat)
    (h : passLabels impl pl s2n g ls states c ch r e = .ok (c', ch', r', e')) :
    ∀ l, c'.filter (fun p => p.1 = l) ⊆ c.filter (fun p => p.1 = l) :=
  fun _ => Finset.filter_subset_filter _ (passLabels_subset h)

/-- Witness for C4 at a one-label pass that keeps the single pair. -/
theorem pass_never_grows_witness :
    passLabels oracleF (labelsOf progExit) projEnd.state_to_node
      (cfaOf progExit) [0] [0] {(0, 0)} false 0 0 =
      .ok ({(0, 0)}, false, 0, 1) ∧
    ∀ l, ({(0, 0)} : Finset (Nat × Nat)).filter (fun p => p.1 = l) ⊆
      ({(0, 0)} : Finset (Nat × Nat)).filter (fun p => p.1 = l) :=
  ⟨rfl,
    pass_never_grows oracleF (labelsOf progExit) projEnd.state_to_node
      (cfaOf progExit) [0] [0] {(0, 0)} {(0, 0)} false false 0 0 0 1 rfl⟩

/-- Counterexample to C5 as stated: on the three-skip chain against a
one-state projection, `check()` performs 10 `compatible` evaluations
before quiescence while `|L| * |S|` is 4: the number of evaluations
exceeds `|L| * |S|` (the linear bound holds for removals, not
evaluations; lengthening the chain grows the gap without bound). -/
theorem evals_exceed_product :
    (labelList chainProg).toFinset.card * (stateList chainProj).toFinset.card <
      checkEvals oracleF chainProg chainProj ∧
    (labelList chainProg).toFinset.card * (stateList chainProj).toFinset.card = 4 ∧
    checkEvals oracleF chainProg chainProj = 10 := by
  refine ⟨?_, rfl, rfl⟩
  show (4 : Nat) < 10
  omega

/-- C5 amended: the number of `compatible` evaluations before quiescence
is at most `(|L| * |S| + 1) * (|L| * |S|)` — every pass evaluates at most
the current size of the relation and there are at most `|L| * |S| + 1`
passes. -/
theorem evals_quadratic_bound (impl : Cond → Cond → Bool) (prog : Stmt)
    (proj : Projection) (R : Finset (Nat × Nat)) (r e : Nat)
    (h : checkLoop impl (labelsOf prog) proj.state_to_node (cfaOf prog)
      (labelList prog) (stateList proj) ((initCompat prog proj).card + 1)
      (initCompat prog proj) 0 0 = .ok (R, r, e)) :
    e ≤ ((labelList prog).toFinset.card * (stateList proj).toFinset.card + 1) *
      ((labelList prog).toFinset.card * (stateList proj).toFinset.card) := by
  have hcard : (initCompat prog proj).card =
      (labelList prog).toFinset.card * (stateList proj).toFinset.card := by
    rw [initCompat]
    exact Finset.card_product _ _
  have := checkLoop_evals (List.nodup_dedup _) (List.nodup_dedup _) h
  rw [hcard] at this
  omega

/-- Witness for the amended C5 at the three-skip chain: 10 evaluations
against the bound 20. -/
theorem evals_quadratic_bound_witness :
    checkLoop oracleF (labelsOf chainProg) chainProj.state_to_node
      (cfaOf chainProg) (labelList chainProg) (stateList chainProj)
      ((initCompat chainProg chainProj).card + 1)
      (initCompat chainProg chainProj) 0 0 = .ok (∅, 4, 10) ∧
    10 ≤ ((labelList chainProg).toFinset.card *
        (stateList chainProj).toFinset.card + 1) *
      ((labelList chainProg).toFinset.card * (stateList chainProj).toFinset.card) :=
  ⟨rfl, evals_quadratic_bound oracleF chainProg chainProj ∅ 4 10 rfl⟩

/-- C6: `nextStatement` treats an empty successor set as "no successor"
(`None`), raises the ambiguous-successors exception as soon as the set has
more than one member — the `Except` plumbing of `compatible` and the pass
functions propagates that exception, so `check()` then fails without a
boolean verdict — and returns the unique member otherwise. -/
theorem nextStatement_spec (g : CFA) (l : Nat) :
    ((succs g l).length = 0 → nextStatement g l = .ok none) ∧
    (1 < (succs g l).length →
      nextStatement g l = .error .ambiguousSuccessors) ∧
    ((succs g l).length = 1 → nextStatement g l = .ok (succs g l).head?) := by
  refine ⟨?_, ?_, ?_⟩ <;> intro h <;> rw [nextStatement]
  · rw [if_pos h]
  · rw [if_neg (by omega), if_pos h]
  · rw [if_neg (by omega), if_neg (by omega)]

/-- Witness for C6 at a label with two distinct successors. -/
theorem nextStatement_spec_witness :
    1 < (succs [(0, 1), (0, 2)] 0).length ∧
    nextStatement [(0, 1), (0, 2)] 0 = .error .ambiguousSuccessors :=
  ⟨by decide, (nextStatement_spec [(0, 1), (0, 2)] 0).2.1 (by decide)⟩

/-- Counterexample to C7 as stated: on a receive with predecessor `0`, own
label `1`, motion entry `2` and one action entry `3`, the claimed rule
(recurse into the motion with the incoming predecessors) would produce the
edge `(0, 2)`, but `buildCFA` produces `(1, 2)` instead — the motion is
entered from the receive's own label — so the two edge sets differ. -/
theorem receive_motion_pred_counterexample :
    (0, 2) ∈ (buildCFAReceiveClaim [] [0] 1 (.Motion 2 ['a'])
      (.cons (.Action 3 ['b'] (.Skip 4)) .nil)).1 ∧
    (0, 2) ∉ (buildCFA [] [0] recvStmt).1 ∧
    (1, 2) ∈ (buildCFA [] [0] recvStmt).1 ∧
    (buildCFA [] [0] recvStmt).1.toFinset ≠
      (buildCFAReceiveClaim [] [0] 1 (.Motion 2 ['a'])
        (.cons (.Action 3 ['b'] (.Skip 4)) .nil)).1.toFinset := by
  decide

/-- C7 amended: for a `Receive(motion, actions)` node, `buildCFA` connects
the incoming predecessors to the receive's own label, recurses into the
motion with the receive's *own* label as sole predecessor, adds an edge
from every exit label of the motion back to the receive's label, recurses
into each action with the receive's own label as sole predecessor, and
returns the union (concatenation) of the actions' exit sets. -/
theorem buildCFA_receive_eq (g : CFA) (lastLabels : List Nat) (l : Nat)
    (motion : Stmt) (actions : StmtList) :
    buildCFA g lastLabels (.Receive l motion actions) =
      match buildCFA (connect g lastLabels l) [l] motion with
      | (g2, ls2) => buildCFAUnion (connect g2 ls2 l) [l] actions := rfl

/-- Counterexample to C8 as stated: the source lowercases both names
before the prefix comparison, so `sameMpName("M_g", "g")` and
`sameMsgName("Msg_a", "a")` hold although the names are neither
case-insensitive-equal nor literally prefix-equal as the claim requires. -/
theorem sameName_prefix_case_counterexample :
    sameMpName ['M', '_', 'g'] ['g'] = true ∧
    ¬(lowerName ['M', '_', 'g'] = lowerName ['g'] ∨
      ['M', '_', 'g'] = 'm' :: '_' :: ['g']) ∧
    sameMsgName ['M', 's', 'g', '_', 'a'] ['a'] = true ∧
    ¬(lowerName ['M', 's', 'g', '_', 'a'] = lowerName ['a'] ∨
      ['M', 's', 'g', '_', 'a'] = 'm' :: 's' :: 'g' :: '_' :: ['a']) := by
  decide

/-- C8 amended: `sameMpName n1 n2` holds iff the lowercased names are
equal or the lowercased `n1` equals `"m_"` followed by the lowercased
`n2`, and `sameMsgName` likewise with the prefix `"msg_"`; in particular
neither predicate accepts the prefixed form in the second argument. -/
theorem sameName_lower_spec (n1 n2 : List Char) :
    (sameMpName n1 n2 = true ↔
      (lowerName n1 = lowerName n2 ∨
        lowerName n1 = 'm' :: '_' :: lowerName n2)) ∧
    (sameMsgName n1 n2 = true ↔
      (lowerName n1 = lowerName n2 ∨
        lowerName n1 = 'm' :: 's' :: 'g' :: '_' :: lowerName n2)) ∧
    sameMpName n2 ('m' :: '_' :: n2) = false ∧
    sameMsgName n2 ('m' :: 's' :: 'g' :: '_' :: n2) = false := by
  refine ⟨?_, ?_, ?_, ?_⟩
  · rw [sameMpName]
    simp only [Bool.or_eq_true, beq_iff_eq]
  · rw [sameMsgName]
    simp only [Bool.or_eq_true, beq_iff_eq]
  · rw [Bool.eq_false_iff]
    intro h
    rw [sameMpName] at h
    simp only [Bool.or_eq_true, beq_iff_eq] at h
    rcases h with h | h
    · have := congrArg List.length h
      simp only [lowerName, List.length_map, List.length_cons] at this
      omega
    · have := congrArg List.length h
      simp only [lowerName, List.length_map, List.length_cons] at this
      omega
  · rw [Bool.eq_false_iff]
    intro h
    rw [sameMsgName] at h
    simp only [Bool.or_eq_true, beq_iff_eq] at h
    rcases h with h | h
    · have := congrArg List.length h
      simp only [lowerName, List.length_map, List.length_cons] at this
      omega
    · have := congrArg List.length h
      simp only [lowerName, List.length_map, List.length_cons] at this
      omega

/-- Witness for the amended C8: a case-insensitive pair accepted through
the characterization. -/
theorem sameName_lower_spec_witness : sameMpName ['m'] ['M'] = true :=
  (sameName_lower_spec ['m'] ['M']).1.mpr (Or.inl (by decide))

/-- C9: `compatible` raises the ambiguous-successors exception only when
the program node of the queried label is one of the kinds whose case
consults `nextStatement` — motion, assign, while (loop-exit side), send,
action, print, skip, sequence — never for a `Receive` or an `If` (whose
cases read branch and action entry labels directly from the syntax tree),
so the several fallthrough successors that `buildCFA` records for a
receive's own label cannot trigger that exception. -/
theorem ambiguous_only_from_next_users (impl : Cond → Cond → Bool)
    (pl : List (Nat × Stmt)) (s2n : List (Nat × ProjNode)) (g : CFA)
    (c : Finset (Nat × Nat)) (l s : Nat)
    (h : compatible impl pl s2n g c l s = .error .ambiguousSuccessors) :
    ∃ st, lookupStmt pl l = some st ∧ usesNext st = true :=
  (compatible_error h).2 rfl

/-- Witness for C9 at a skip whose label has two successors. -/
theorem ambiguous_only_from_next_users_witness :
    compatible oracleF [(5, .Skip 5)] [(0, .End)] [(5, 1), (5, 2)] ∅ 5 0 =
      .error .ambiguousSuccessors ∧
    ∃ st, lookupStmt [(5, .Skip 5)] 5 = some st ∧ usesNext st = true :=
  ⟨rfl,
    ambiguous_only_from_next_users oracleF [(5, .Skip 5)] [(0, .End)]
      [(5, 1), (5, 2)] ∅ 5 0 rfl⟩

/-- C10: with a cache every entry of which agrees with the deterministic
external procedure — as the cache created empty in the constructor and
only ever filled by `implies` is — a cache query returns the oracle's
answer, keeps the cache consistent, only appends to it (the old cache is a
suffix of the new one), and a whole `check()` run whose implication
queries are answered through any such cache returns the same verdict as
one answered by the oracle directly; `check()` itself re-initializes
`compat` to the universal relation on entry, so successive runs agree. -/
theorem implies_cache_consistent (oracle : Cond → Cond → Bool)
    (cache : ImplCache) (prog : Stmt) (proj : Projection)
    (hcon : ConsistentCache oracle cache) :
    (∀ c1 c2, (impliesC oracle cache c1 c2).1 = oracle c1 c2 ∧
      ConsistentCache oracle (impliesC oracle cache c1 c2).2 ∧
      cache.IsSuffix (impliesC oracle cache c1 c2).2) ∧
    check (fun c1 c2 => (impliesC oracle cache c1 c2).1) prog proj =
      check oracle prog proj := by
  have key : ∀ c1 c2, (impliesC oracle cache c1 c2).1 = oracle c1 c2 := by
    intro c1 c2
    rw [impliesC]
    cases hl : cache.lookup (c1, c2) with
    | none => rfl
    | some res => exact hcon _ (lookup_mem hl)
  constructor
  · intro c1 c2
    refine ⟨key c1 c2, ?_, ?_⟩
    · rw [impliesC]
      cases hl : cache.lookup (c1, c2) with
      | some res => exact hcon
      | none =>
          intro p hp
          rcases List.mem_cons.mp hp with hp | hp
          · subst hp; rfl
          · exact hcon p hp
    · rw [impliesC]
      cases hl : cache.lookup (c1, c2) with
      | some res => exact List.suffix_refl _
      | none => exact List.suffix_cons _ _
  · have hfun : (fun c1 c2 => (impliesC oracle cache c1 c2).1) = oracle :=
      funext fun c1 => funext fun c2 => key c1 c2
    rw [hfun]

/-- Witness for C10 with the empty cache of a fresh constructor. -/
theorem implies_cache_consistent_witness :
    ConsistentCache oracleF ([] : ImplCache) ∧
    ((∀ c1 c2, (impliesC oracleF [] c1 c2).1 = oracleF c1 c2 ∧
      ConsistentCache oracleF (impliesC oracleF [] c1 c2).2 ∧
      ([] : ImplCache).IsSuffix (impliesC oracleF [] c1 c2).2) ∧
    check (fun c1 c2 => (impliesC oracleF [] c1 c2).1) progExit projEnd =
      check oracleF progExit projEnd) :=
  ⟨fun p hp => absurd hp (List.not_mem_nil p),
    implies_cache_consistent oracleF [] progExit projEnd
      (fun p hp => absurd hp (List.not_mem_nil p))⟩

end Refinement
